import Mathlib

/-!
Shallow embedding of sgxwallet's storage layer (`LevelDB.cpp`) and of the
bundled LRU cache (`lrucache.hpp`), together with proofs of the spec's
testable properties.

Strings are modelled as `List Char`.  The JSON layer (`Json::FastWriter`,
`Json::Reader`) is third-party code used by `LevelDB.cpp`; it is modelled
here exactly on the shapes the repository reads and writes: one top-level
object whose members are strings, with jsoncpp's string escaping, and with
the parse-success flag reified (the repository ignores it, and so do the
embedded callers).
-/

/-- Decimal digit character, `48 = '0'`. -/
def decDigit (d : Nat) : Char := Char.ofNat (48 + d)

/-- Digit characters of `n`, most significant first, prepended to `acc`
(models `std::to_string` on a nonnegative `time_t`). -/
def toDecAux (n : Nat) (acc : List Char) : List Char :=
  if n < 10 then decDigit n :: acc
  else toDecAux (n / 10) (decDigit (n % 10) :: acc)
  termination_by n
  decreasing_by exact Nat.div_lt_self (by omega) (by omega)

/-- Decimal representation of `n` (models `std::to_string`). -/
def toDec (n : Nat) : List Char := toDecAux n []

/-- Lower-case hex digit character, as emitted by jsoncpp's `\u00XX` escapes. -/
def hexDigitChar (d : Nat) : Char :=
  if d < 10 then Char.ofNat (48 + d) else Char.ofNat (87 + d)

/-- Value of one hex digit, accepting `0-9`, `a-f`, `A-F`
(jsoncpp `decodeUnicodeEscape`); `none` on anything else. -/
def hexVal (c : Char) : Option Nat :=
  if 48 ≤ c.toNat ∧ c.toNat ≤ 57 then some (c.toNat - 48)
  else if 97 ≤ c.toNat ∧ c.toNat ≤ 102 then some (c.toNat - 87)
  else if 65 ≤ c.toNat ∧ c.toNat ≤ 70 then some (c.toNat - 55)
  else none

/-- jsoncpp string escaping (`valueToQuotedString`), one character:
quote and backslash are escaped, the classic control escapes are used for
backspace, form feed, newline, carriage return and tab, any other control
character becomes `\u00XX`, and everything else passes through. -/
def escChar (c : Char) : List Char :=
  if c = '"' then ['\\', '"']
  else if c = '\\' then ['\\', '\\']
  else if c = Char.ofNat 8 then ['\\', 'b']
  else if c = Char.ofNat 12 then ['\\', 'f']
  else if c = '\n' then ['\\', 'n']
  else if c = '\r' then ['\\', 'r']
  else if c = '\t' then ['\\', 't']
  else if c.toNat < 32 then
    ['\\', 'u', '0', '0', hexDigitChar (c.toNat / 16), hexDigitChar (c.toNat % 16)]
  else [c]

/-- jsoncpp string escaping over a whole string. -/
def escString (s : List Char) : List Char := s.foldr (fun c r => escChar c ++ r) []

/-- A fully quoted string literal, as emitted by `valueToQuotedString`. -/
def quoteStr (s : List Char) : List Char := '"' :: (escString s ++ ['"'])

/-- The simple (single-character) escapes accepted by jsoncpp's reader. -/
def simpleEscape (e : Char) : Option Char :=
  if e = '"' then some '"'
  else if e = '/' then some '/'
  else if e = '\\' then some '\\'
  else if e = 'b' then some (Char.ofNat 8)
  else if e = 'f' then some (Char.ofNat 12)
  else if e = 'n' then some '\n'
  else if e = 'r' then some '\r'
  else if e = 't' then some '\t'
  else none

/-- jsoncpp `Reader::decodeString`: the body of a string literal after its
opening quote.  Returns the decoded string and the input remaining after the
closing quote, or `none` on a malformed literal. -/
def parseQuotedBody : List Char → Option (List Char × List Char)
  | [] => none
  | c :: rest =>
    if c = '"' then some ([], rest)
    else if c = '\\' then
      match rest with
      | [] => none
      | e :: rest2 =>
        if e = 'u' then
          match rest2 with
          | d1 :: d2 :: d3 :: d4 :: rest3 =>
            match hexVal d1, hexVal d2, hexVal d3, hexVal d4 with
            | some a, some b, some c2, some d =>
              match parseQuotedBody rest3 with
              | some (s, r) => some (Char.ofNat (((a * 16 + b) * 16 + c2) * 16 + d) :: s, r)
              | none => none
            | _, _, _, _ => none
          | _ => none
        else
          match simpleEscape e with
          | some c2 =>
            match parseQuotedBody rest2 with
            | some (s, r) => some (c2 :: s, r)
            | none => none
          | none => none
    else
      match parseQuotedBody rest with
      | some (s, r) => some (c :: s, r)
      | none => none

theorem hexVal_hexDigitChar (d : Nat) (h : d < 16) : hexVal (hexDigitChar d) = some d := by
  interval_cases d <;> decide

theorem escString_cons (c : Char) (s : List Char) :
    escString (c :: s) = escChar c ++ escString s := rfl

/-- Reading back an escaped string: the reader inverts `escString` on any
string, consuming exactly up to the closing quote. -/
theorem parseQuotedBody_escString (s rest : List Char) :
    parseQuotedBody (escString s ++ '"' :: rest) = some (s, rest) := by
  induction s with
  | nil => simp [escString, parseQuotedBody.eq_def]
  | cons c s ih =>
    rw [escString_cons]
    by_cases h1 : c = '"'
    · subst h1
      rw [show escChar '"' = ['\\', '"'] from by decide]
      simp only [List.cons_append, List.nil_append]
      rw [parseQuotedBody.eq_def]
      simp [simpleEscape, ih]
    · by_cases h2 : c = '\\'
      · subst h2
        rw [show escChar '\\' = ['\\', '\\'] from by decide]
        simp only [List.cons_append, List.nil_append]
        rw [parseQuotedBody.eq_def]
        simp [simpleEscape, ih]
      · by_cases h3 : c = Char.ofNat 8
        · subst h3
          rw [show escChar (Char.ofNat 8) = ['\\', 'b'] from by decide]
          simp only [List.cons_append, List.nil_append]
          rw [parseQuotedBody.eq_def]
          simp [simpleEscape, ih]
        · by_cases h4 : c = Char.ofNat 12
          · subst h4
            rw [show escChar (Char.ofNat 12) = ['\\', 'f'] from by decide]
            simp only [List.cons_append, List.nil_append]
            rw [parseQuotedBody.eq_def]
            simp [simpleEscape, ih]
          · by_cases h5 : c = '\n'
            · subst h5
              rw [show escChar '\n' = ['\\', 'n'] from by decide]
              simp only [List.cons_append, List.nil_append]
              rw [parseQuotedBody.eq_def]
              simp [simpleEscape, ih]
            · by_cases h6 : c = '\r'
              · subst h6
                rw [show escChar '\r' = ['\\', 'r'] from by decide]
                simp only [List.cons_append, List.nil_append]
                rw [parseQuotedBody.eq_def]
                simp [simpleEscape, ih]
              · by_cases h7 : c = '\t'
                · subst h7
                  rw [show escChar '\t' = ['\\', 't'] from by decide]
                  simp only [List.cons_append, List.nil_append]
                  rw [parseQuotedBody.eq_def]
                  simp [simpleEscape, ih]
                · by_cases h8 : c.toNat < 32
                  · have hd1 : c.toNat / 16 < 16 := by omega
                    have hd2 : c.toNat % 16 < 16 := Nat.mod_lt _ (by omega)
                    have hchar : Char.ofNat
                        (((0 * 16 + 0) * 16 + c.toNat / 16) * 16 + c.toNat % 16) = c := by
                      rw [show ((0 * 16 + 0) * 16 + c.toNat / 16) * 16 + c.toNat % 16
                          = c.toNat from by omega, Char.ofNat_toNat]
                    have he : escChar c = ['\\', 'u', '0', '0',
                        hexDigitChar (c.toNat / 16), hexDigitChar (c.toNat % 16)] := by
                      simp only [escChar, if_neg h1, if_neg h2, if_neg h3, if_neg h4,
                        if_neg h5, if_neg h6, if_neg h7, if_pos h8]
                    rw [he]
                    simp only [List.cons_append, List.nil_append]
                    rw [parseQuotedBody.eq_def]
                    have h0 : hexVal '0' = some 0 := by decide
                    simp only [h0, hexVal_hexDigitChar _ hd1, hexVal_hexDigitChar _ hd2, ih]
                    suffices hs : Char.ofNat (c.toNat / 16 * 16 + c.toNat % 16) = c by simp [hs]
                    rw [show c.toNat / 16 * 16 + c.toNat % 16 = c.toNat from by omega,
                      Char.ofNat_toNat]
                  · have he : escChar c = [c] := by
                      simp only [escChar, if_neg h1, if_neg h2, if_neg h3, if_neg h4,
                        if_neg h5, if_neg h6, if_neg h7, if_neg h8]
                    rw [he]
                    simp only [List.cons_append, List.nil_append]
                    rw [parseQuotedBody.eq_def]
                    simp [h1, h2, ih]

/-- Whitespace skipped between jsoncpp tokens. -/
def isJsonWs (c : Char) : Bool := c = ' ' || c = '\t' || c = '\n' || c = '\r'

/-- Skip inter-token whitespace (jsoncpp `Reader::skipSpaces`). -/
def skipWs : List Char → List Char
  | [] => []
  | c :: rest => if isJsonWs c then skipWs rest else c :: rest

/-- Result of a `Json::Reader::parse` call on the record wire format: the
Boolean success flag returned by `parse` (ignored by the repository) and the
members accumulated into the root object, in insertion order. -/
structure PObj where
  ok : Bool
  fields : List (List Char × List Char)
  deriving DecidableEq

/-- jsoncpp `Reader::readObject`, restricted to string-valued members (the
only shape the repository ever writes into a store).  One fuel unit is spent
per member, and the top-level entry point supplies more fuel than any input
can consume, so the fuel-exhaustion branch is unreachable.  On a token error
the loop stops, returning `ok := false` together with the members built so
far — exactly the partially filled root the C++ caller goes on to use when
it ignores the flag. -/
def parseMembersF : Nat → List Char → List (List Char × List Char) → PObj
  | 0, _, acc => ⟨false, acc⟩
  | fuel + 1, input, acc =>
    match skipWs input with
    | [] => ⟨false, acc⟩
    | c :: rest =>
      if c = '}' then ⟨true, acc⟩
      else if c = '"' then
        match parseQuotedBody rest with
        | none => ⟨false, acc⟩
        | some (name, rest2) =>
          match skipWs rest2 with
          | [] => ⟨false, acc⟩
          | c2 :: rest4 =>
            if c2 = ':' then
              match skipWs rest4 with
              | [] => ⟨false, acc⟩
              | c3 :: rest6 =>
                if c3 = '"' then
                  match parseQuotedBody rest6 with
                  | none => ⟨false, acc⟩
                  | some (v, rest7) =>
                    match skipWs rest7 with
                    | [] => ⟨false, acc ++ [(name, v)]⟩
                    | c4 :: rest9 =>
                      if c4 = ',' then parseMembersF fuel rest9 (acc ++ [(name, v)])
                      else if c4 = '}' then ⟨true, acc ++ [(name, v)]⟩
                      else ⟨false, acc ++ [(name, v)]⟩
                else ⟨false, acc⟩
            else ⟨false, acc⟩
      else ⟨false, acc⟩

/-- `Json::Reader::parse` on a document expected to be one object (every
stored record the repository parses has already been sniffed to start with
the object marker). -/
def parseTop (v : List Char) : PObj :=
  match skipWs v with
  | c :: rest => if c = '{' then parseMembersF (rest.length + 1) rest [] else ⟨false, []⟩
  | [] => ⟨false, []⟩

/-- `key_data[name].asString()`: member lookup in the parsed root.  jsoncpp
stores members in a map where a re-assigned name keeps its last value, and a
missing member reads as the null value, whose `asString()` is empty. -/
def fieldOr (po : PObj) (name : List Char) : List Char :=
  match po.fields.reverse.find? (fun p => p.1 == name) with
  | some p => p.2
  | none => []

/-- `LevelDB::readNewStyleValue`: parse the stored bytes and extract the
`value` member.  The success flag of the parse is ignored, as in the C++. -/
def readNewStyleValue (value : List Char) : List Char :=
  fieldOr (parseTop value) ("value".toList)

/-- The record format distinguished by the spec: `Legacy` raw bytes versus
the `Versioned` structured object. -/
inductive RecFormat
  | Legacy
  | Versioned
  deriving DecidableEq

/-- Errors surfaced by the store operations under the embedding:
`outOfRange` is the `std::out_of_range` thrown by `result->at(0)` on an
empty stored value, `keyShareAlreadyExists` the `SGXException` thrown by
`writeDataUnique` on a duplicate. -/
inductive StoreErr
  | outOfRange
  | keyShareAlreadyExists
  deriving DecidableEq

/-- The value-decoding branch of `LevelDB::readString`: bounds-checked read
of the first byte (`result->at(0)`, which throws on an empty value), then
either the new-style parse or the verbatim legacy payload.  The returned
`RecFormat` names the branch taken. -/
def decodeValue (v : List Char) : Except StoreErr (List Char × RecFormat) :=
  match v with
  | [] => Except.error StoreErr.outOfRange
  | c :: _ =>
    if c = '{' then Except.ok (readNewStyleValue v, RecFormat.Versioned)
    else Except.ok (v, RecFormat.Legacy)

/-- `LevelDB::writeString`'s encoding of a payload with a timestamp:
`Json::FastWriter` output for an object with members `timestamp` and
`value` (members are emitted in the key order of jsoncpp's member map, so
`timestamp` first), followed by the writer's trailing newline. -/
def encodeRecord (P : List Char) (T : Nat) : List Char :=
  '{' :: (quoteStr ("timestamp".toList) ++ ':' :: quoteStr (toDec T)
    ++ ',' :: quoteStr ("value".toList) ++ ':' :: quoteStr P ++ ['}', '\n'])

theorem quoteStr_append (s tail : List Char) :
    quoteStr s ++ tail = '"' :: (escString s ++ '"' :: tail) := by
  simp [quoteStr]

theorem skipWs_cons_of_not_ws (c : Char) (l : List Char) (h : isJsonWs c = false) :
    skipWs (c :: l) = c :: l := by
  simp [skipWs, h]

/-- One member followed by a comma: the reader consumes it and loops. -/
theorem parseMembersF_step (fuel : Nat) (h : 0 < fuel) (name s tail : List Char)
    (acc : List (List Char × List Char)) :
    parseMembersF fuel (quoteStr name ++ ':' :: (quoteStr s ++ ',' :: tail)) acc
      = parseMembersF (fuel - 1) tail (acc ++ [(name, s)]) := by
  obtain ⟨m, rfl⟩ : ∃ m, fuel = m + 1 := ⟨fuel - 1, by omega⟩
  rw [quoteStr_append, quoteStr_append]
  rw [parseMembersF.eq_def]
  simp [skipWs, isJsonWs, parseQuotedBody_escString]

/-- The last member, followed by the closing brace: the reader accepts. -/
theorem parseMembersF_last (fuel : Nat) (h : 0 < fuel) (name s tail : List Char)
    (acc : List (List Char × List Char)) :
    parseMembersF fuel (quoteStr name ++ ':' :: (quoteStr s ++ '}' :: tail)) acc
      = ⟨true, acc ++ [(name, s)]⟩ := by
  obtain ⟨m, rfl⟩ : ∃ m, fuel = m + 1 := ⟨fuel - 1, by omega⟩
  rw [quoteStr_append, quoteStr_append]
  rw [parseMembersF.eq_def]
  simp [skipWs, isJsonWs, parseQuotedBody_escString]

/-- `parseTop` on bytes that start with the object marker enters the member
loop with fuel one larger than the remaining input. -/
theorem parseTop_brace (body : List Char) :
    parseTop ('{' :: body) = parseMembersF (body.length + 1) body [] := by
  unfold parseTop
  rw [skipWs_cons_of_not_ws _ _ (by decide)]
  simp

/-- Parsing an encoded record succeeds and recovers both members. -/
theorem parseTop_encodeRecord (P : List Char) (T : Nat) :
    parseTop (encodeRecord P T)
      = ⟨true, [("timestamp".toList, toDec T), ("value".toList, P)]⟩ := by
  unfold encodeRecord
  rw [parseTop_brace]
  simp only [List.cons_append, List.append_assoc]
  rw [parseMembersF_step _ (by omega)]
  rw [parseMembersF_last _ (by simp [quoteStr])]
  simp

/-- Codec round trip at the value level: decoding an encoded record gives
back the payload, classified as `Versioned`. -/
theorem decodeValue_encodeRecord (P : List Char) (T : Nat) :
    decodeValue (encodeRecord P T) = Except.ok (P, RecFormat.Versioned) := by
  have hparse := parseTop_encodeRecord P T
  unfold encodeRecord at hparse ⊢
  rw [decodeValue]
  rw [if_pos rfl]
  unfold readNewStyleValue
  rw [hparse]
  simp [fieldOr]

/-- One store instance: the association of keys to raw value bytes held by
the underlying LevelDB engine, most recent write first. -/
def Store : Type := List (String × List Char)

/-- Engine `Get`: the raw bytes stored under a key, if any. -/
def dbGet (st : Store) (k : String) : Option (List Char) :=
  (List.find? (fun p => p.1 == k) st).map (fun p => p.2)

/-- Engine `Put`: upsert of the raw bytes stored under a key. -/
def dbPut (st : Store) (k : String) (v : List Char) : Store :=
  (k, v) :: List.filter (fun p => !(p.1 == k)) st

/-- `LevelDB::readString`: engine lookup, `nullptr` (here `none`) when the
key is absent, otherwise the first-byte sniff and decode of the raw bytes. -/
def readString (st : Store) (k : String) : Except StoreErr (Option (List Char)) :=
  match dbGet st k with
  | none => Except.ok none
  | some v => (decodeValue v).map (fun p => some p.1)

/-- `LevelDB::writeString`: encode the payload with the current timestamp
(made explicit as the parameter `T`) and `Put` the result. -/
def writeString (st : Store) (k : String) (v : List Char) (T : Nat) : Store :=
  dbPut st k (encodeRecord v T)

/-- `LevelDB::writeDataUnique`: read first; an existing value (in either
format) raises `KEY_SHARE_ALREADY_EXISTS` and nothing is written, otherwise
`writeString` runs.  Errors thrown by the read propagate. -/
def writeDataUnique (st : Store) (name : String) (value : List Char) (T : Nat) :
    Except StoreErr Store :=
  match readString st name with
  | Except.error e => Except.error e
  | Except.ok (some _) => Except.error StoreErr.keyShareAlreadyExists
  | Except.ok none => Except.ok (writeString st name value T)

theorem dbGet_dbPut_same (st : Store) (k : String) (v : List Char) :
    dbGet (dbPut st k v) k = some v := by
  simp [dbGet, dbPut, List.find?]

/-- Reading back a key just written returns the written payload. -/
theorem readString_writeString (st : Store) (k : String) (v : List Char) (T : Nat) :
    readString (writeString st k v T) k = Except.ok (some v) := by
  unfold readString writeString
  rw [dbGet_dbPut_same]
  simp [decodeValue_encodeRecord, Except.map]

/-- ASCII decimal digit test. -/
def isDigitChar (c : Char) : Bool := 48 ≤ c.toNat && c.toNat ≤ 57

/-- Numeric value of a digit character. -/
def digitVal (c : Char) : Nat := c.toNat - 48

/-- Value of a digit string, most significant digit first. -/
def digitsVal (ds : List Char) : Nat := ds.foldl (fun a c => a * 10 + digitVal c) 0

/-- `std::stoi`: skip leading whitespace, optional minus sign, then the
longest digit prefix.  `none` models the exceptions: `invalid_argument`
when no digit is found and `out_of_range` when the value does not fit in a
32-bit `int`. -/
def stoiInt (s : List Char) : Option Int :=
  match skipWs s with
  | [] => none
  | c :: rest =>
    if c = '-' then
      let ds := rest.takeWhile isDigitChar
      if ds.isEmpty then none
      else if (digitsVal ds : Int) ≤ 2147483648 then some (-(digitsVal ds : Int)) else none
    else
      let ds := (c :: rest).takeWhile isDigitChar
      if ds.isEmpty then none
      else if digitsVal ds ≤ 2147483647 then some ((digitsVal ds : Int)) else none

theorem toDecAux_eq_append (n : Nat) : ∀ acc : List Char, toDecAux n acc = toDec n ++ acc := by
  induction n using Nat.strong_induction_on with
  | _ n ih =>
    intro acc
    by_cases h : n < 10
    · have e1 : toDecAux n acc = decDigit n :: acc := by
        rw [toDecAux.eq_def]; rw [if_pos h]
      have e2 : toDec n = [decDigit n] := by
        rw [toDec, toDecAux.eq_def]; rw [if_pos h]
      rw [e1, e2]
      rfl
    · have e1 : toDecAux n acc = toDecAux (n / 10) (decDigit (n % 10) :: acc) := by
        rw [toDecAux.eq_def]; rw [if_neg h]
      have e2 : toDec n = toDecAux (n / 10) [decDigit (n % 10)] := by
        rw [toDec, toDecAux.eq_def]; rw [if_neg h]
      have hlt : n / 10 < n := Nat.div_lt_self (by omega) (by omega)
      rw [e1, e2, ih (n / 10) hlt, ih (n / 10) hlt]
      simp

theorem toDec_lt (n : Nat) (h : n < 10) : toDec n = [decDigit n] := by
  rw [toDec, toDecAux.eq_def, if_pos h]

theorem toDec_ge (n : Nat) (h : ¬n < 10) : toDec n = toDec (n / 10) ++ [decDigit (n % 10)] := by
  rw [toDec, toDecAux.eq_def, if_neg h, toDecAux_eq_append]

theorem isDigitChar_decDigit (d : Nat) (h : d < 10) : isDigitChar (decDigit d) = true := by
  interval_cases d <;> decide

theorem digitVal_decDigit (d : Nat) (h : d < 10) : digitVal (decDigit d) = d := by
  interval_cases d <;> decide

theorem toDec_digits (n : Nat) : ∀ c ∈ toDec n, isDigitChar c = true := by
  induction n using Nat.strong_induction_on with
  | _ n ih =>
    by_cases h : n < 10
    · rw [toDec_lt n h]
      intro c hc
      rw [List.mem_singleton] at hc
      subst hc
      exact isDigitChar_decDigit n h
    · rw [toDec_ge n h]
      intro c hc
      rcases List.mem_append.mp hc with h1 | h1
      · exact ih (n / 10) (Nat.div_lt_self (by omega) (by omega)) c h1
      · rw [List.mem_singleton] at h1
        subst h1
        exact isDigitChar_decDigit _ (Nat.mod_lt _ (by omega))

theorem toDec_ne_nil (n : Nat) : toDec n ≠ [] := by
  by_cases h : n < 10
  · rw [toDec_lt n h]; simp
  · rw [toDec_ge n h]; simp

theorem digitsVal_toDec (n : Nat) : digitsVal (toDec n) = n := by
  induction n using Nat.strong_induction_on with
  | _ n ih =>
    by_cases h : n < 10
    · rw [toDec_lt n h]
      simp [digitsVal, digitVal_decDigit n h]
    · rw [toDec_ge n h]
      unfold digitsVal
      rw [List.foldl_append]
      have := ih (n / 10) (Nat.div_lt_self (by omega) (by omega))
      unfold digitsVal at this
      rw [this]
      simp only [List.foldl_cons, List.foldl_nil]
      rw [digitVal_decDigit _ (Nat.mod_lt _ (by omega))]
      omega

theorem takeWhile_all {p : Char → Bool} (l : List Char) (h : ∀ c ∈ l, p c = true) :
    l.takeWhile p = l := by
  induction l with
  | nil => rfl
  | cons c l ih =>
    rw [List.takeWhile_cons, if_pos (h c (List.mem_cons_self _ _))]
    rw [ih (fun c hc => h c (List.mem_cons_of_mem _ hc))]

theorem not_ws_of_digit (c : Char) (h : isDigitChar c = true) : isJsonWs c = false := by
  rw [isJsonWs]
  have h1 : ¬c = ' ' := fun hc => absurd (hc ▸ h) (by decide)
  have h2 : ¬c = '\t' := fun hc => absurd (hc ▸ h) (by decide)
  have h3 : ¬c = '\n' := fun hc => absurd (hc ▸ h) (by decide)
  have h4 : ¬c = '\r' := fun hc => absurd (hc ▸ h) (by decide)
  simp [h1, h2, h3, h4]

/-- `std::stoi` inverts `std::to_string` on any timestamp that fits in an
`int`. -/
theorem stoiInt_toDec (T : Nat) (h : T ≤ 2147483647) : stoiInt (toDec T) = some (T : Int) := by
  obtain ⟨c, l, hcons⟩ := List.exists_cons_of_ne_nil (toDec_ne_nil T)
  have hdig := toDec_digits T
  have hc : isDigitChar c = true := hdig c (by rw [hcons]; exact List.mem_cons_self _ _)
  have hminus : ¬c = '-' := fun hm => absurd (hm ▸ hc) (by decide)
  have htake : (c :: l).takeWhile isDigitChar = c :: l :=
    takeWhile_all _ (fun x hx => hdig x (hcons ▸ hx))
  unfold stoiInt
  rw [hcons, skipWs_cons_of_not_ws _ _ (not_ws_of_digit _ hc)]
  simp only [if_neg hminus, htake, List.isEmpty_cons, Bool.false_eq_true, if_false]
  rw [← hcons, digitsVal_toDec]
  rw [if_pos h]

/-- The `std::stoi` exception escaping `LevelDB::getLatestCreatedKey`. -/
inductive ScanErr
  | stoiFailure
  deriving DecidableEq

/-- One iteration of the `getLatestCreatedKey` loop: `it->value().ToString()[0]`
reads the terminator (not the object marker) on an empty value, so empty and
other non-`{` values are skipped as old-style keys; a `{`-headed value is
parsed (flag ignored), its `timestamp` member is `stoi`ed, and a strictly
larger timestamp replaces the current best. -/
def latestStep (acc : String × Int) (e : String × List Char) : Except ScanErr (String × Int) :=
  match e.2 with
  | [] => Except.ok acc
  | c :: _ =>
    if c = '{' then
      match stoiInt (fieldOr (parseTop e.2) ("timestamp".toList)) with
      | none => Except.error ScanErr.stoiFailure
      | some t => if acc.2 < t then Except.ok (e.1, t) else Except.ok acc
    else Except.ok acc

/-- `LevelDB::getLatestCreatedKey`: full scan starting from the empty key
and timestamp `0`. -/
def getLatestCreatedKey (entries : List (String × List Char)) : Except ScanErr (String × Int) :=
  List.foldlM latestStep ("", 0) entries

/-- Logical contents of one stored record, used to state scan properties:
either a legacy raw value or a versioned payload with its timestamp. -/
inductive RecVal
  | legacy (v : List Char)
  | versioned (P : List Char) (T : Nat)

/-- The raw bytes the engine holds for a logical record. -/
def renderRec : String × RecVal → String × List Char
  | (k, RecVal.legacy v) => (k, v)
  | (k, RecVal.versioned P T) => (k, encodeRecord P T)

/-- Well-formedness of a logical record: legacy bytes do not start with the
object marker, and versioned timestamps are positive creation times fitting
in a 32-bit `int` (as every `std::to_string(std::time(nullptr))` does). -/
def validRec : String × RecVal → Bool
  | (_, RecVal.legacy v) =>
    match v with
    | [] => true
    | c :: _ => c != '{'
  | (_, RecVal.versioned _ T) => decide (0 < T) && decide (T ≤ 2147483647)

/-- Keys and timestamps of the versioned records, in order. -/
def versionedPairs : List (String × RecVal) → List (String × Int)
  | [] => []
  | (k, RecVal.versioned _ T) :: rs => (k, (T : Int)) :: versionedPairs rs
  | (_, RecVal.legacy _) :: rs => versionedPairs rs

/-- Maximum versioned timestamp, `0` when there is none. -/
def maxTs (rs : List (String × RecVal)) : Int :=
  (versionedPairs rs).foldr (fun p a => max p.2 a) 0

theorem maxTs_nonneg (rs : List (String × RecVal)) : 0 ≤ maxTs rs := by
  unfold maxTs
  induction versionedPairs rs with
  | nil => simp
  | cons p l ih =>
    simp only [List.foldr_cons]
    exact le_trans ih (le_max_right _ _)

theorem maxTs_cons_legacy (k : String) (v : List Char) (rs : List (String × RecVal)) :
    maxTs ((k, RecVal.legacy v) :: rs) = maxTs rs := rfl

theorem maxTs_cons_versioned (k : String) (P : List Char) (T : Nat)
    (rs : List (String × RecVal)) :
    maxTs ((k, RecVal.versioned P T) :: rs) = max (T : Int) (maxTs rs) := rfl

theorem latestStep_legacy (acc : String × Int) (k : String) (v : List Char)
    (hv : validRec (k, RecVal.legacy v) = true) :
    latestStep acc (renderRec (k, RecVal.legacy v)) = Except.ok acc := by
  unfold renderRec latestStep
  cases v with
  | nil => rfl
  | cons c l =>
    have hc : (c != '{') = true := by simpa [validRec] using hv
    have hne : ¬c = '{' := bne_iff_ne.mp hc
    simp [hne]

theorem latestStep_versioned (acc : String × Int) (k : String) (P : List Char) (T : Nat)
    (h1 : T ≤ 2147483647) :
    latestStep acc (renderRec (k, RecVal.versioned P T))
      = Except.ok (if acc.2 < (T : Int) then (k, (T : Int)) else acc) := by
  have hfield : fieldOr (parseTop (encodeRecord P T)) ("timestamp".toList) = toDec T := by
    rw [parseTop_encodeRecord]
    have hv : (("value".toList : List Char) == "timestamp".toList) = false := by decide
    have ht : (("timestamp".toList : List Char) == "timestamp".toList) = true := by decide
    simp [fieldOr, List.find?, hv, ht]
  unfold renderRec latestStep
  unfold encodeRecord at hfield ⊢
  simp only [List.cons_append, List.append_assoc] at hfield ⊢
  simp at hfield
  simp [hfield, stoiInt_toDec T h1]
  split <;> rfl

/-- Invariant of the `getLatestCreatedKey` loop over well-formed records:
the scan never fails, the accumulated timestamp becomes the maximum of the
starting one and all versioned timestamps, and the accumulator either stays
untouched or lands on a versioned record that strictly improved on it. -/
theorem getLatest_fold (rs : List (String × RecVal)) :
    ∀ acc : String × Int, (∀ r ∈ rs, validRec r = true) → 0 ≤ acc.2 →
    ∃ res : String × Int,
      List.foldlM latestStep acc (rs.map renderRec) = Except.ok res ∧
      res.2 = max acc.2 (maxTs rs) ∧
      (res = acc ∨ ((res.1, res.2) ∈ versionedPairs rs ∧ acc.2 < res.2)) := by
  induction rs with
  | nil =>
    intro acc hval h0
    refine ⟨acc, by simp [List.foldlM]; rfl, ?_, Or.inl rfl⟩
    have : maxTs ([] : List (String × RecVal)) = 0 := rfl
    rw [this]
    exact (max_eq_left h0).symm
  | cons r rs ih =>
    intro acc hval h0
    obtain ⟨k, rv⟩ := r
    have hrest : ∀ x ∈ rs, validRec x = true := fun x hx => hval x (List.mem_cons_of_mem _ hx)
    cases rv with
    | legacy v =>
      have hstep := latestStep_legacy acc k v (hval _ (List.mem_cons_self _ _))
      obtain ⟨res, hfold, hmax, hmem⟩ := ih acc hrest h0
      refine ⟨res, ?_, ?_, ?_⟩
      · rw [List.map_cons, List.foldlM_cons, hstep]
        simpa using hfold
      · rw [maxTs_cons_legacy]; exact hmax
      · rcases hmem with h | ⟨hm, hl⟩
        · exact Or.inl h
        · exact Or.inr ⟨hm, hl⟩
    | versioned P T =>
      have hvr : 0 < T ∧ T ≤ 2147483647 := by
        simpa [validRec] using hval _ (List.mem_cons_self _ _)
      have hstep := latestStep_versioned acc k P T hvr.2
      have hpairs : versionedPairs ((k, RecVal.versioned P T) :: rs)
          = (k, (T : Int)) :: versionedPairs rs := rfl
      by_cases hlt : acc.2 < (T : Int)
      · rw [if_pos hlt] at hstep
        obtain ⟨res, hfold, hmax, hmem⟩ := ih (k, (T : Int)) hrest (by positivity)
        refine ⟨res, ?_, ?_, ?_⟩
        · rw [List.map_cons, List.foldlM_cons, hstep]
          simpa using hfold
        · rw [maxTs_cons_versioned, hmax]
          exact (max_eq_right (le_trans (le_of_lt hlt) (le_max_left _ _))).symm
        · rcases hmem with h | ⟨hm, hl⟩
          · refine Or.inr ⟨?_, ?_⟩
            · rw [h, hpairs]
              exact List.mem_cons_self _ _
            · rw [h]; exact hlt
          · refine Or.inr ⟨?_, ?_⟩
            · rw [hpairs]
              exact List.mem_cons_of_mem _ hm
            · exact lt_trans hlt hl
      · rw [if_neg hlt] at hstep
        obtain ⟨res, hfold, hmax, hmem⟩ := ih acc hrest h0
        refine ⟨res, ?_, ?_, ?_⟩
        · rw [List.map_cons, List.foldlM_cons, hstep]
          simpa using hfold
        · rw [maxTs_cons_versioned, hmax]
          rw [← max_assoc, max_eq_left (le_of_not_lt hlt)]
        · rcases hmem with h | ⟨hm, hl⟩
          · exact Or.inl h
          · refine Or.inr ⟨?_, hl⟩
            rw [hpairs]
            exact List.mem_cons_of_mem _ hm

/-- The process-wide registry state: the `isInited` flag, the resolved data
folder, and whether each of the three stores has been opened
(`levelDb`, `csrDb`, `csrStatusDb` being non-null). -/
structure RegistryState where
  isInited : Bool
  sgxDataFolder : Option String
  levelDbOpen : Bool
  csrDbOpen : Bool
  csrStatusDbOpen : Bool
  deriving DecidableEq

/-- A fresh process: nothing initialized, no store open. -/
def freshRegistry : RegistryState :=
  ⟨false, none, false, false, false⟩

/-- Environment of one `initDataFolderAndDBs` run: the outcome of each
external step (`getcwd`, `stat`, `mkdir`, and the three `leveldb::DB::Open`
calls wrapped by the `LevelDB` constructor). -/
structure InitEnv where
  cwd : Option String
  dataFolderExists : Bool
  mkdirOk : Bool
  walletOpenOk : Bool
  csrOpenOk : Bool
  csrStatusOpenOk : Bool
  deriving DecidableEq

/-- The exceptions `initDataFolderAndDBs` can throw: the `CHECK_STATE`
failure on re-entry, the two `SGXException`s, and the `runtime_error` from
the `LevelDB` constructor. -/
inductive InitErr
  | stateCheckFailed
  | couldNotGetWorkingDirectory
  | errorCreatingSgxDataFolder
  | unableToOpenDB
  deriving DecidableEq

/-- `LevelDB::initDataFolderAndDBs`: `CHECK_STATE(!isInited)` throws on
re-entry; otherwise `isInited` is set to `true` *before any other step*;
then the working directory is resolved, the data folder created if absent,
and the three stores opened in order, each failure throwing at that point.
The returned pair is the thrown exception (if any) together with the
registry state left behind by the partial execution. -/
def initDataFolderAndDBs (env : InitEnv) (st : RegistryState) :
    Option InitErr × RegistryState :=
  if st.isInited then (some InitErr.stateCheckFailed, st)
  else
    let st1 := { st with isInited := true }
    match env.cwd with
    | none => (some InitErr.couldNotGetWorkingDirectory, st1)
    | some cwd =>
      let st2 := { st1 with sgxDataFolder := some (cwd ++ "/" ++ "sgx_data") }
      if !env.dataFolderExists && !env.mkdirOk then
        (some InitErr.errorCreatingSgxDataFolder, st2)
      else if !env.walletOpenOk then (some InitErr.unableToOpenDB, st2)
      else
        let st3 := { st2 with levelDbOpen := true }
        if !env.csrOpenOk then (some InitErr.unableToOpenDB, st3)
        else
          let st4 := { st3 with csrDbOpen := true }
          if !env.csrStatusOpenOk then (some InitErr.unableToOpenDB, st4)
          else (none, { st4 with csrStatusDbOpen := true })

/-- `LevelDB::visitKeys`: iterate keys in engine order, calling the visitor
on each, incrementing the counter, and breaking once the counter reaches
the bound.  Returns the keys visited (the visitor calls, in order) and the
counter that is returned. -/
def visitKeysGo (maxKeys : Nat) : List String → Nat → List String × Nat
  | [], cnt => ([], cnt)
  | k :: rest, cnt =>
    if cnt + 1 ≥ maxKeys then ([k], cnt + 1)
    else
      let r := visitKeysGo maxKeys rest (cnt + 1)
      (k :: r.1, r.2)

/-- `LevelDB::visitKeys` from the start of the iterator. -/
def visitKeys (keys : List String) (maxKeys : Nat) : List String × Nat :=
  visitKeysGo maxKeys keys 0

/-- `LevelDB::writeKeysToVector1`: same traversal, collecting keys into a
vector instead of calling a visitor. -/
def writeKeysToVector1Go (maxKeys : Nat) : List String → Nat → List String
  | [], _ => []
  | k :: rest, cnt =>
    if cnt + 1 ≥ maxKeys then [k]
    else k :: writeKeysToVector1Go maxKeys rest (cnt + 1)

/-- `LevelDB::writeKeysToVector1` from the start of the iterator. -/
def writeKeysToVector1 (keys : List String) (maxKeys : Nat) : List String :=
  writeKeysToVector1Go maxKeys keys 0

theorem visitKeysGo_spec (N : Nat) (keys : List String) :
    ∀ cnt, cnt < N → N - cnt ≤ keys.length →
      visitKeysGo N keys cnt = (keys.take (N - cnt), N) := by
  induction keys with
  | nil =>
    intro cnt h1 h2
    simp at h2
    omega
  | cons k rest ih =>
    intro cnt h1 h2
    by_cases hb : cnt + 1 ≥ N
    · have hn : N - cnt = 1 := by omega
      rw [visitKeysGo, if_pos hb, hn]
      simp
      omega
    · have hn : N - cnt = (N - (cnt + 1)) + 1 := by omega
      rw [visitKeysGo, if_neg hb]
      rw [ih (cnt + 1) (by omega) (by simp at h2 ⊢; omega)]
      rw [hn]
      simp

theorem writeKeysToVector1Go_spec (N : Nat) (keys : List String) :
    ∀ cnt, cnt < N → N - cnt ≤ keys.length →
      writeKeysToVector1Go N keys cnt = keys.take (N - cnt) := by
  induction keys with
  | nil =>
    intro cnt h1 h2
    simp at h2
    omega
  | cons k rest ih =>
    intro cnt h1 h2
    by_cases hb : cnt + 1 ≥ N
    · have hn : N - cnt = 1 := by omega
      rw [writeKeysToVector1Go, if_pos hb, hn]
      simp
    · have hn : N - cnt = (N - (cnt + 1)) + 1 := by omega
      rw [writeKeysToVector1Go, if_neg hb]
      rw [ih (cnt + 1) (by omega) (by simp at h2 ⊢; omega)]
      rw [hn]
      simp

/-- `cache::lru_cache`: the recency list `_cache_items_list` (front = most
recently used) together with the configured capacity `_max_size`.  The keyed
map `_cache_items_map` holds one iterator per listed pair, so it is the
keyed view of `items`; its size is `items.length` whenever the keys are
distinct, which every reachable state maintains. -/
structure lru_cache (α β : Type) where
  items : List (α × β)
  max_size : Nat
  deriving DecidableEq

/-- A freshly constructed cache of capacity `C`. -/
def lru_cache.empty (α β : Type) (C : Nat) : lru_cache α β := ⟨[], C⟩

/-- `lru_cache::exists`: map lookup without touching recency. -/
def lru_cache.existsKey {α β : Type} [DecidableEq α] (c : lru_cache α β) (k : α) : Bool :=
  c.items.any (fun p => p.1 == k)

/-- `lru_cache::size`: the entry count. -/
def lru_cache.size {α β : Type} (c : lru_cache α β) : Nat := c.items.length

/-- `lru_cache::put`: push the new pair to the front, erase any previous
entry for the key, then evict the back (least recently used) entry when the
map has grown past `_max_size`. -/
def lru_cache.put {α β : Type} [DecidableEq α] (c : lru_cache α β) (k : α) (v : β) :
    lru_cache α β :=
  let l := (k, v) :: c.items.filter (fun p => !(p.1 == k))
  if l.length > c.max_size then ⟨l.dropLast, c.max_size⟩ else ⟨l, c.max_size⟩

/-- `lru_cache::putIfDoesNotExist`. -/
def lru_cache.putIfDoesNotExist {α β : Type} [DecidableEq α] (c : lru_cache α β)
    (k : α) (v : β) : lru_cache α β :=
  if c.existsKey k then c else c.put k v

/-- `lru_cache::get`: on a hit, splice the entry to the front of the recency
list and return its value; on a miss throw `std::range_error` (modelled as
`none`), leaving the cache unchanged. -/
def lru_cache.get {α β : Type} [DecidableEq α] (c : lru_cache α β) (k : α) :
    Option β × lru_cache α β :=
  match c.items.find? (fun p => p.1 == k) with
  | none => (none, c)
  | some p => (some p.2, ⟨p :: c.items.filter (fun q => !(q.1 == k)), c.max_size⟩)

/-- The operations of the cache's public mutating interface. -/
inductive CacheOp (α β : Type)
  | op_put (k : α) (v : β)
  | op_putIfAbsent (k : α) (v : β)
  | op_get (k : α)

/-- State transition of one cache operation. -/
def applyCacheOp {α β : Type} [DecidableEq α] (c : lru_cache α β) : CacheOp α β → lru_cache α β
  | CacheOp.op_put k v => c.put k v
  | CacheOp.op_putIfAbsent k v => c.putIfDoesNotExist k v
  | CacheOp.op_get k => (c.get k).2

/-- The cache reached from a fresh instance of capacity `C` by a sequence of
operations. -/
def runOps (α β : Type) [DecidableEq α] (C : Nat) (ops : List (CacheOp α β)) : lru_cache α β :=
  ops.foldl applyCacheOp (lru_cache.empty α β C)

theorem lru_cache.put_def {α β : Type} [DecidableEq α] (c : lru_cache α β) (k : α) (v : β) :
    c.put k v =
      if ((k, v) :: c.items.filter (fun p => !(p.1 == k))).length > c.max_size then
        ⟨((k, v) :: c.items.filter (fun p => !(p.1 == k))).dropLast, c.max_size⟩
      else ⟨(k, v) :: c.items.filter (fun p => !(p.1 == k)), c.max_size⟩ := rfl

theorem lru_cache.put_max_size {α β : Type} [DecidableEq α] (c : lru_cache α β) (k : α) (v : β) :
    (c.put k v).max_size = c.max_size := by
  rw [lru_cache.put_def]
  split <;> rfl

theorem lru_cache.put_length_le {α β : Type} [DecidableEq α] (c : lru_cache α β) (k : α) (v : β)
    (h : c.items.length ≤ c.max_size) : (c.put k v).items.length ≤ c.max_size := by
  rw [lru_cache.put_def]
  have hflt : (c.items.filter (fun p => !(p.1 == k))).length ≤ c.items.length :=
    List.length_filter_le _ _
  split
  · simp only [List.length_dropLast, List.length_cons]
    omega
  · next hng =>
    simp only [List.length_cons] at hng ⊢
    omega

theorem lru_cache.get_length_le {α β : Type} [DecidableEq α] (c : lru_cache α β) (k : α)
    (h : c.items.length ≤ c.max_size) : ((c.get k).2).items.length ≤ c.max_size := by
  unfold lru_cache.get
  cases hf : c.items.find? (fun p => p.1 == k) with
  | none => simpa using h
  | some p =>
    have hp := List.find?_some hf
    have hmem : p ∈ c.items := List.mem_of_find?_eq_some hf
    have hlt : (c.items.filter (fun q => !(q.1 == k))).length < c.items.length := by
      apply List.length_filter_lt_length_iff_exists.mpr
      refine ⟨p, hmem, ?_⟩
      simp at hp ⊢
      exact hp
    simp only [List.length_cons]
    omega

theorem lru_cache.get_max_size {α β : Type} [DecidableEq α] (c : lru_cache α β) (k : α) :
    ((c.get k).2).max_size = c.max_size := by
  unfold lru_cache.get
  cases hf : c.items.find? (fun p => p.1 == k) <;> rfl

theorem applyCacheOp_max_size {α β : Type} [DecidableEq α] (c : lru_cache α β)
    (op : CacheOp α β) : (applyCacheOp c op).max_size = c.max_size := by
  cases op with
  | op_put k v => exact lru_cache.put_max_size c k v
  | op_putIfAbsent k v =>
    simp only [applyCacheOp, lru_cache.putIfDoesNotExist]
    split
    · rfl
    · exact lru_cache.put_max_size c k v
  | op_get k => exact lru_cache.get_max_size c k

theorem applyCacheOp_length_le {α β : Type} [DecidableEq α] (c : lru_cache α β)
    (op : CacheOp α β) (h : c.items.length ≤ c.max_size) :
    (applyCacheOp c op).items.length ≤ c.max_size := by
  cases op with
  | op_put k v => exact lru_cache.put_length_le c k v h
  | op_putIfAbsent k v =>
    simp only [applyCacheOp, lru_cache.putIfDoesNotExist]
    split
    · exact h
    · exact lru_cache.put_length_le c k v h
  | op_get k => exact lru_cache.get_length_le c k h

theorem runOps_le (α β : Type) [DecidableEq α] (C : Nat) (ops : List (CacheOp α β)) :
    (runOps α β C ops).items.length ≤ C ∧ (runOps α β C ops).max_size = C := by
  unfold runOps
  induction ops using List.reverseRecOn with
  | nil => exact ⟨by simp [lru_cache.empty], rfl⟩
  | append_singleton ops op ih =>
    rw [List.foldl_append, List.foldl_cons, List.foldl_nil]
    have h1 : (List.foldl applyCacheOp (lru_cache.empty α β C) ops).items.length
        ≤ (List.foldl applyCacheOp (lru_cache.empty α β C) ops).max_size := by
      rw [ih.2]; exact ih.1
    constructor
    · have h2 := applyCacheOp_length_le _ op h1
      rw [ih.2] at h2
      exact h2
    · rw [applyCacheOp_max_size]
      exact ih.2

/-- Value observed for a key (`_cache_items_map` lookup composed with the
list iterator), without touching recency. -/
def lru_cache.lookupVal {α β : Type} [DecidableEq α] (c : lru_cache α β) (k : α) : Option β :=
  (c.items.find? (fun p => p.1 == k)).map (fun p => p.2)

theorem find?_filter_ne {α β : Type} [DecidableEq α] (l : List (α × β)) (k k2 : α)
    (h : ¬k2 = k) :
    (l.filter (fun p => !(p.1 == k))).find? (fun p => p.1 == k2)
      = l.find? (fun p => p.1 == k2) := by
  induction l with
  | nil => rfl
  | cons p l ih =>
    rw [List.filter_cons]
    by_cases hpk : p.1 = k
    · have hb : (!(p.1 == k)) = false := by simp [hpk]
      have hk2 : (p.1 == k2) = false := by
        simp only [beq_eq_false_iff_ne, ne_eq]
        intro he
        exact h (he ▸ hpk ▸ rfl)
      simp [hb, List.find?_cons, hk2, ih]
    · have hb : (!(p.1 == k)) = true := by simp [hpk]
      simp only [hb, if_true]
      cases hc : (p.1 == k2) <;> simp [List.find?_cons, hc, ih]

theorem length_filter_of_mem_nodup {α β : Type} [DecidableEq α] (l : List (α × β)) (k : α)
    (hnd : (l.map Prod.fst).Nodup) (hmem : ∃ p ∈ l, p.1 = k) :
    (l.filter (fun p => !(p.1 == k))).length + 1 = l.length := by
  induction l with
  | nil =>
    obtain ⟨p, hp, _⟩ := hmem
    cases hp
  | cons q l ih =>
    rw [List.map_cons, List.nodup_cons] at hnd
    rw [List.filter_cons]
    by_cases hqk : q.1 = k
    · have hq : (!(q.1 == k)) = false := by simp [hqk]
      have hfl : l.filter (fun p => !(p.1 == k)) = l := by
        rw [List.filter_eq_self]
        intro p hp
        have hne : ¬p.1 = k := by
          intro hpk
          exact hnd.1 (hqk ▸ hpk ▸ List.mem_map_of_mem Prod.fst hp)
        simp [hne]
      simp [hq, hfl]
    · have hq : (!(q.1 == k)) = true := by simp [hqk]
      obtain ⟨p, hp, hpk⟩ := hmem
      rcases List.mem_cons.mp hp with rfl | hpl
      · exact absurd hpk hqk
      · have := ih hnd.2 ⟨p, hpl, hpk⟩
        simp only [hq, if_true, List.length_cons]
        omega

theorem filter_eq_self_of_absent {α β : Type} [DecidableEq α] (l : List (α × β)) (k : α)
    (h : ∀ p ∈ l, ¬p.1 = k) : l.filter (fun p => !(p.1 == k)) = l := by
  rw [List.filter_eq_self]
  intro p hp
  simp [h p hp]

theorem nodup_cons_filter {α β : Type} [DecidableEq α] (items : List (α × β)) (k : α)
    (p : α × β) (hpk : p.1 = k) (h : (items.map Prod.fst).Nodup) :
    (((p :: items.filter (fun q => !(q.1 == k)))).map Prod.fst).Nodup := by
  rw [List.map_cons, List.nodup_cons]
  constructor
  · intro hmem
    obtain ⟨q, hq, hfst⟩ := List.mem_map.mp hmem
    have hqf := List.mem_filter.mp hq
    have : ¬q.1 = k := by simpa using hqf.2
    exact this (hfst.trans hpk)
  · exact h.sublist (List.Sublist.map Prod.fst (List.filter_sublist _))

theorem lru_cache.put_nodup {α β : Type} [DecidableEq α] (c : lru_cache α β) (k : α) (v : β)
    (h : (c.items.map Prod.fst).Nodup) : ((c.put k v).items.map Prod.fst).Nodup := by
  have hcons := nodup_cons_filter c.items k (k, v) rfl h
  rw [lru_cache.put_def]
  split
  · exact hcons.sublist (List.Sublist.map Prod.fst (List.dropLast_sublist _))
  · exact hcons

theorem lru_cache.get_nodup {α β : Type} [DecidableEq α] (c : lru_cache α β) (k : α)
    (h : (c.items.map Prod.fst).Nodup) : (((c.get k).2).items.map Prod.fst).Nodup := by
  unfold lru_cache.get
  cases hf : c.items.find? (fun p => p.1 == k) with
  | none => simpa using h
  | some p =>
    have hp := List.find?_some hf
    have hpk : p.1 = k := by simpa using hp
    exact nodup_cons_filter c.items k p hpk h

theorem applyCacheOp_nodup {α β : Type} [DecidableEq α] (c : lru_cache α β) (op : CacheOp α β)
    (h : (c.items.map Prod.fst).Nodup) : ((applyCacheOp c op).items.map Prod.fst).Nodup := by
  cases op with
  | op_put k v => exact lru_cache.put_nodup c k v h
  | op_putIfAbsent k v =>
    simp only [applyCacheOp, lru_cache.putIfDoesNotExist]
    split
    · exact h
    · exact lru_cache.put_nodup c k v h
  | op_get k => exact lru_cache.get_nodup c k h

/-- Every reachable cache state has pairwise-distinct keys, so the keyed map
and the recency list always agree and `size()` is the length of `items`. -/
theorem runOps_nodup (α β : Type) [DecidableEq α] (C : Nat) (ops : List (CacheOp α β)) :
    ((runOps α β C ops).items.map Prod.fst).Nodup := by
  unfold runOps
  induction ops using List.reverseRecOn with
  | nil => simp [lru_cache.empty]
  | append_singleton ops op ih =>
    rw [List.foldl_append, List.foldl_cons, List.foldl_nil]
    exact applyCacheOp_nodup _ op ih

/-- Spec-side reference scan over logical records: among the versioned
records, in order, the first one strictly exceeding every earlier timestamp
wins; with none, the empty key and timestamp zero remain. -/
def latestSpec (rs : List (String × RecVal)) : String × Int :=
  (versionedPairs rs).foldl (fun a p => if a.2 < p.2 then p else a) ("", 0)

/-- The byte-level scan refines the spec-side scan: on well-formed records
the loop over raw bytes computes exactly the pure fold over the logical
versioned pairs. -/
theorem getLatest_refines (rs : List (String × RecVal)) :
    ∀ acc : String × Int, (∀ r ∈ rs, validRec r = true) →
      List.foldlM latestStep acc (rs.map renderRec)
        = Except.ok ((versionedPairs rs).foldl (fun a p => if a.2 < p.2 then p else a) acc) := by
  induction rs with
  | nil =>
    intro acc hval
    simp [List.foldlM]
    rfl
  | cons r rs ih =>
    intro acc hval
    obtain ⟨k, rv⟩ := r
    have hrest : ∀ x ∈ rs, validRec x = true := fun x hx => hval x (List.mem_cons_of_mem _ hx)
    cases rv with
    | legacy v =>
      rw [List.map_cons, List.foldlM_cons,
        latestStep_legacy acc k v (hval _ (List.mem_cons_self _ _))]
      rw [show versionedPairs ((k, RecVal.legacy v) :: rs) = versionedPairs rs from rfl]
      simpa using ih acc hrest
    | versioned P T =>
      have hvr : 0 < T ∧ T ≤ 2147483647 := by
        simpa [validRec] using hval _ (List.mem_cons_self _ _)
      rw [List.map_cons, List.foldlM_cons, latestStep_versioned acc k P T hvr.2]
      rw [show versionedPairs ((k, RecVal.versioned P T) :: rs)
        = (k, (T : Int)) :: versionedPairs rs from rfl, List.foldl_cons]
      simpa using ih (if acc.2 < (T : Int) then (k, (T : Int)) else acc) hrest

/-- Claim C1: record codec round trip.  For every payload and timestamp,
the bytes produced by the writer decode back to exactly that payload,
classified as a `Versioned` record; at the store level, reading a key just
written returns the payload. -/
theorem c1_codec_roundtrip (P : List Char) (T : Nat) (st : Store) (k : String) :
    decodeValue (encodeRecord P T) = Except.ok (P, RecFormat.Versioned)
    ∧ readString (writeString st k P T) k = Except.ok (some P) :=
  ⟨decodeValue_encodeRecord P T, readString_writeString st k P T⟩

/-- Claim C2 counterexample: the single stored byte `{` fails to parse as a
structured object (the parse flag is `false`), yet decoding surfaces no
error: it silently returns the empty payload as a `Versioned` record. -/
theorem c2_counterexample :
    decodeValue ('{' :: []) = Except.ok (([] : List Char), RecFormat.Versioned)
    ∧ (parseTop ('{' :: [])).ok = false := by
  constructor
  · rfl
  · rfl

/-- Claim C2 amended: stored bytes beginning with the structured-object
marker that do not parse are never treated as legacy, but no `CorruptRecord`
error is surfaced either: the parse failure is ignored and decoding returns
the `value` member of the partially parsed object, which is the empty
payload whenever no such member was recovered. -/
theorem c2_amended (rest : List Char)
    (_hok : (parseTop ('{' :: rest)).ok = false)
    (hnone : (parseTop ('{' :: rest)).fields.reverse.find?
      (fun p => p.1 == "value".toList) = none) :
    decodeValue ('{' :: rest) = Except.ok (([] : List Char), RecFormat.Versioned) := by
  unfold decodeValue
  simp only [if_pos rfl]
  unfold readNewStyleValue fieldOr
  rw [hnone]
  simp

/-- Claim C2 witness: the amended statement at the concrete corrupt byte
sequence consisting of the marker alone. -/
theorem c2_witness :
    decodeValue ('{' :: []) = Except.ok (([] : List Char), RecFormat.Versioned) :=
  c2_amended [] (by decide) (by decide)

/-- Claim C3 counterexample: the empty stored byte sequence is not returned
verbatim as a legacy payload; `result->at(0)` throws `std::out_of_range`. -/
theorem c3_counterexample :
    ¬decodeValue [] = Except.ok (([] : List Char), RecFormat.Legacy)
    ∧ decodeValue [] = Except.error StoreErr.outOfRange := by
  constructor
  · intro h
    cases h
  · rfl

/-- Claim C3 amended: every *nonempty* byte sequence whose first byte is not
the structured-object marker decodes verbatim as a `Legacy` payload; the
empty sequence instead raises the bounds-check error of `at(0)`. -/
theorem c3_amended (c : Char) (l : List Char) (h : ¬c = '{') :
    decodeValue (c :: l) = Except.ok (c :: l, RecFormat.Legacy)
    ∧ decodeValue [] = Except.error StoreErr.outOfRange := by
  constructor
  · unfold decodeValue
    simp [h]
  · rfl

/-- Claim C3 witness: the amended statement at a one-byte legacy value. -/
theorem c3_witness :
    decodeValue ('a' :: []) = Except.ok ('a' :: [], RecFormat.Legacy)
    ∧ decodeValue [] = Except.error StoreErr.outOfRange :=
  c3_amended 'a' [] (by decide)

/-- Claim C5: uniqueness enforcement.  After a `writeString` of `v1` under
`k`, a `writeDataUnique` of anything under `k` fails with the duplicate-key
error (so nothing is written), and reading `k` still returns `v1`. -/
theorem c5_write_unique (st : Store) (k : String) (v1 : List Char) (T1 : Nat)
    (v2 : List Char) (T2 : Nat) :
    writeDataUnique (writeString st k v1 T1) k v2 T2
        = Except.error StoreErr.keyShareAlreadyExists
    ∧ readString (writeString st k v1 T1) k = Except.ok (some v1) := by
  refine ⟨?_, readString_writeString st k v1 T1⟩
  unfold writeDataUnique
  rw [readString_writeString]

/-- Claim C4 counterexample: with the third store failing to open, the run
throws, yet the registry is left reporting itself initialized
(`isInited = true`) with the wallet store open and the CSR store not —
a partially-initialized state, not "not initialized at all". -/
theorem c4_counterexample :
    (initDataFolderAndDBs ⟨some ("/w"), true, true, true, false, true⟩ freshRegistry).1
        = some InitErr.unableToOpenDB
    ∧ (initDataFolderAndDBs ⟨some ("/w"), true, true, true, false, true⟩ freshRegistry).2.isInited
        = true
    ∧ (initDataFolderAndDBs ⟨some ("/w"), true, true, true, false, true⟩ freshRegistry).2.levelDbOpen
        = true
    ∧ (initDataFolderAndDBs ⟨some ("/w"), true, true, true, false, true⟩ freshRegistry).2.csrDbOpen
        = false := by
  refine ⟨rfl, rfl, rfl, rfl⟩

/-- Claim C4 amended: initialization is not all-or-nothing.  The inited flag
is set before any fallible step, so any run on a fresh registry — failed or
not — leaves it reporting initialized; only a fully successful run is
guaranteed to have opened all three stores, and a failure keeps whatever
opened before it without rollback. -/
theorem c4_amended (env : InitEnv) (st : RegistryState) (h : st.isInited = false) :
    (initDataFolderAndDBs env st).2.isInited = true
    ∧ ((initDataFolderAndDBs env st).1 = none →
        (initDataFolderAndDBs env st).2.levelDbOpen = true
        ∧ (initDataFolderAndDBs env st).2.csrDbOpen = true
        ∧ (initDataFolderAndDBs env st).2.csrStatusDbOpen = true) := by
  unfold initDataFolderAndDBs
  simp only [h, Bool.false_eq_true, if_false]
  cases env.cwd with
  | none => simp
  | some cwd =>
    simp only []
    split_ifs <;> simp

/-- Claim C4 witness: the amended statement on a fresh registry with every
step succeeding. -/
theorem c4_witness :
    (initDataFolderAndDBs ⟨some ("/w"), true, true, true, true, true⟩ freshRegistry).2.isInited
        = true
    ∧ ((initDataFolderAndDBs ⟨some ("/w"), true, true, true, true, true⟩ freshRegistry).1 = none →
        (initDataFolderAndDBs ⟨some ("/w"), true, true, true, true, true⟩
            freshRegistry).2.levelDbOpen = true
        ∧ (initDataFolderAndDBs ⟨some ("/w"), true, true, true, true, true⟩
            freshRegistry).2.csrDbOpen = true
        ∧ (initDataFolderAndDBs ⟨some ("/w"), true, true, true, true, true⟩
            freshRegistry).2.csrStatusDbOpen = true) :=
  c4_amended ⟨some ("/w"), true, true, true, true, true⟩ freshRegistry rfl

/-- Claim C6: `getLatestCreatedKey` over any store of well-formed records
computes exactly the reference scan over the logical records: it skips
legacy records, returns the maximum versioned timestamp with a key of a
versioned record holding it, and returns the empty key with timestamp zero
when no versioned record exists. -/
theorem c6_latest_created (rs : List (String × RecVal))
    (hval : ∀ r ∈ rs, validRec r = true) :
    getLatestCreatedKey (rs.map renderRec) = Except.ok (latestSpec rs)
    ∧ (latestSpec rs).2 = maxTs rs
    ∧ ((latestSpec rs).2 = 0 → (latestSpec rs).1 = "")
    ∧ (0 < (latestSpec rs).2 → latestSpec rs ∈ versionedPairs rs) := by
  obtain ⟨res, hfold, hmax, hmem⟩ := getLatest_fold rs ("", 0) hval (by simp)
  have heq := getLatest_refines rs ("", 0) hval
  rw [hfold] at heq
  have hres : res = latestSpec rs := by
    unfold latestSpec
    exact Except.ok.inj heq
  have hres2 : res.2 = maxTs rs := by
    rw [hmax]
    exact max_eq_right (maxTs_nonneg rs)
  refine ⟨?_, ?_, ?_, ?_⟩
  · unfold getLatestCreatedKey
    rw [hfold, hres]
  · rw [← hres]
    exact hres2
  · intro h0
    rcases hmem with he | ⟨hm, hl⟩
    · rw [← hres, he]
    · exfalso
      rw [hres, h0] at hl
      exact absurd hl (by norm_num)
  · intro hpos
    rcases hmem with he | ⟨hm, hl⟩
    · exfalso
      rw [he] at hres
      rw [← hres] at hpos
      exact absurd hpos (by norm_num)
    · rw [← hres]
      have : (res.1, res.2) = res := rfl
      rw [← this]
      exact hm

/-- Claim C6 witness: three versioned records with timestamps 10, 30, 20 and
one legacy record; the scan returns the key written with timestamp 30. -/
theorem c6_witness :
    getLatestCreatedKey
        ((("a", RecVal.versioned ('x' :: []) 10) :: ("b", RecVal.legacy ('r' :: []))
          :: ("c", RecVal.versioned ('y' :: []) 30)
          :: ("d", RecVal.versioned ('z' :: []) 20) :: []).map renderRec)
      = Except.ok (latestSpec (("a", RecVal.versioned ('x' :: []) 10)
          :: ("b", RecVal.legacy ('r' :: []))
          :: ("c", RecVal.versioned ('y' :: []) 30)
          :: ("d", RecVal.versioned ('z' :: []) 20) :: []))
    ∧ (latestSpec (("a", RecVal.versioned ('x' :: []) 10)
          :: ("b", RecVal.legacy ('r' :: []))
          :: ("c", RecVal.versioned ('y' :: []) 30)
          :: ("d", RecVal.versioned ('z' :: []) 20) :: [])).2
        = maxTs (("a", RecVal.versioned ('x' :: []) 10)
          :: ("b", RecVal.legacy ('r' :: []))
          :: ("c", RecVal.versioned ('y' :: []) 30)
          :: ("d", RecVal.versioned ('z' :: []) 20) :: [])
    ∧ ((latestSpec (("a", RecVal.versioned ('x' :: []) 10)
          :: ("b", RecVal.legacy ('r' :: []))
          :: ("c", RecVal.versioned ('y' :: []) 30)
          :: ("d", RecVal.versioned ('z' :: []) 20) :: [])).2 = 0 →
        (latestSpec (("a", RecVal.versioned ('x' :: []) 10)
          :: ("b", RecVal.legacy ('r' :: []))
          :: ("c", RecVal.versioned ('y' :: []) 30)
          :: ("d", RecVal.versioned ('z' :: []) 20) :: [])).1 = "")
    ∧ (0 < (latestSpec (("a", RecVal.versioned ('x' :: []) 10)
          :: ("b", RecVal.legacy ('r' :: []))
          :: ("c", RecVal.versioned ('y' :: []) 30)
          :: ("d", RecVal.versioned ('z' :: []) 20) :: [])).2 →
        latestSpec (("a", RecVal.versioned ('x' :: []) 10)
          :: ("b", RecVal.legacy ('r' :: []))
          :: ("c", RecVal.versioned ('y' :: []) 30)
          :: ("d", RecVal.versioned ('z' :: []) 20) :: [])
          ∈ versionedPairs (("a", RecVal.versioned ('x' :: []) 10)
          :: ("b", RecVal.legacy ('r' :: []))
          :: ("c", RecVal.versioned ('y' :: []) 30)
          :: ("d", RecVal.versioned ('z' :: []) 20) :: [])) :=
  c6_latest_created _ (by decide)

/-- Claim C7 counterexample: with `maxKeys = 0` on a one-key store, the
visit loop still visits one key and returns 1, because the bound is checked
only after a visit — the claim's "visits exactly 0 and returns 0" fails. -/
theorem c7_counterexample :
    ¬(visitKeys ("a" :: []) 0).2 = 0
    ∧ visitKeys ("a" :: []) 0 = ("a" :: [], 1)
    ∧ writeKeysToVector1 ("a" :: []) 0 = "a" :: [] := by
  refine ⟨by decide, rfl, rfl⟩

/-- Claim C7 amended: for every bound `N ≥ 1` and every store with more than
`N` keys, `visitKeys` visits exactly the first `N` keys and returns `N`, and
`writeKeysToVector1` collects exactly those `N` keys; with `N = 0` and a
nonempty store, one key is visited and 1 is returned, the bound being
checked only after each visit. -/
theorem c7_amended (keys : List String) (N : Nat) (kh : String) (kt : List String)
    (h1 : 1 ≤ N) (h2 : N < keys.length) :
    visitKeys keys N = (keys.take N, N)
    ∧ writeKeysToVector1 keys N = keys.take N
    ∧ visitKeys (kh :: kt) 0 = (kh :: [], 1) := by
  refine ⟨?_, ?_, ?_⟩
  · unfold visitKeys
    have := visitKeysGo_spec N keys 0 (by omega) (by omega)
    simpa using this
  · unfold writeKeysToVector1
    have := writeKeysToVector1Go_spec N keys 0 (by omega) (by omega)
    simpa using this
  · unfold visitKeys
    rw [visitKeysGo]
    simp

/-- Claim C7 witness: the amended statement with bound 2 on a three-key
store. -/
theorem c7_witness :
    visitKeys ("a" :: "b" :: "c" :: []) 2 = (("a" :: "b" :: "c" :: []).take 2, 2)
    ∧ writeKeysToVector1 ("a" :: "b" :: "c" :: []) 2 = ("a" :: "b" :: "c" :: []).take 2
    ∧ visitKeys ("x" :: []) 0 = ("x" :: [], 1) :=
  c7_amended ("a" :: "b" :: "c" :: []) 2 ("x") [] (by decide) (by decide)

/-- Claim C8: cache capacity invariant.  After any sequence of `put`,
`putIfDoesNotExist` and `get` operations from a fresh cache of capacity `C`
the entry count never exceeds `C`; and a `put` of an absent key into a full
cache evicts exactly one entry — the least-recently-used (back) one of the
post-insertion list — keeping the size at capacity. -/
theorem c8_cache_capacity (α β : Type) [DecidableEq α] :
    (∀ (C : Nat) (ops : List (CacheOp α β)), (runOps α β C ops).size ≤ C)
    ∧ ∀ (c : lru_cache α β) (k : α) (v : β),
        c.existsKey k = false → c.size = c.max_size →
        (c.put k v).items = ((k, v) :: c.items).dropLast
        ∧ (c.put k v).size = c.max_size := by
  constructor
  · intro C ops
    exact (runOps_le α β C ops).1
  · intro c k v hk hs
    have habs : ∀ p ∈ c.items, ¬p.1 = k := by
      intro p hp hpk
      have hkt : c.existsKey k = true := by
        unfold lru_cache.existsKey
        rw [List.any_eq_true]
        exact ⟨p, hp, by simp [hpk]⟩
      rw [hkt] at hk
      cases hk
    have hfe : c.items.filter (fun p => !(p.1 == k)) = c.items :=
      filter_eq_self_of_absent c.items k habs
    unfold lru_cache.size at hs
    have hgt : ((k, v) :: c.items).length > c.max_size := by
      simp only [List.length_cons]
      omega
    rw [lru_cache.put_def, hfe, if_pos hgt]
    refine ⟨rfl, ?_⟩
    unfold lru_cache.size
    simp only [List.length_dropLast, List.length_cons]
    omega

/-- Claim C8 witness: a fresh capacity-2 cache filled by two puts stays at
size ≤ 2, and a third put of a fresh key evicts exactly the back entry. -/
theorem c8_witness :
    (runOps Nat Nat 2 (CacheOp.op_put 0 1 :: CacheOp.op_put 1 2 :: [])).size ≤ 2
    ∧ ((runOps Nat Nat 2 (CacheOp.op_put 0 1 :: CacheOp.op_put 1 2 :: [])).put 2 5).items
        = ((2, 5) :: (runOps Nat Nat 2
            (CacheOp.op_put 0 1 :: CacheOp.op_put 1 2 :: [])).items).dropLast
    ∧ ((runOps Nat Nat 2 (CacheOp.op_put 0 1 :: CacheOp.op_put 1 2 :: [])).put 2 5).size
        = (runOps Nat Nat 2 (CacheOp.op_put 0 1 :: CacheOp.op_put 1 2 :: [])).max_size :=
  ⟨(c8_cache_capacity Nat Nat).1 2 (CacheOp.op_put 0 1 :: CacheOp.op_put 1 2 :: []),
    ((c8_cache_capacity Nat Nat).2 (runOps Nat Nat 2
      (CacheOp.op_put 0 1 :: CacheOp.op_put 1 2 :: [])) 2 5 (by decide) (by decide)).1,
    ((c8_cache_capacity Nat Nat).2 (runOps Nat Nat 2
      (CacheOp.op_put 0 1 :: CacheOp.op_put 1 2 :: [])) 2 5 (by decide) (by decide)).2⟩

/-- Claim C9: cache recency promotion by `get`.  With capacity 2 and keys
`a = 0`, `b = 1`, `c = 2`: after `put(a,1)`, `put(b,2)`, `get(a)`,
`put(c,3)`, the entry for `b` is evicted and exactly `a` and `c` remain. -/
theorem c9_cache_recency :
    (((((lru_cache.empty Nat Nat 2).put 0 1).put 1 2).get 0).2.put 2 3).items
        = ((2, 3) :: (0, 1) :: [])
    ∧ (((((lru_cache.empty Nat Nat 2).put 0 1).put 1 2).get 0).2.put 2 3).existsKey 0 = true
    ∧ (((((lru_cache.empty Nat Nat 2).put 0 1).put 1 2).get 0).2.put 2 3).existsKey 2 = true
    ∧ (((((lru_cache.empty Nat Nat 2).put 0 1).put 1 2).get 0).2.put 2 3).existsKey 1 = false
    ∧ (((((lru_cache.empty Nat Nat 2).put 0 1).put 1 2).get 0).2.put 2 3).size = 2 := by
  refine ⟨rfl, rfl, rfl, rfl, rfl⟩

/-- Claim C10: frame property of `put` on a present key.  In a well-formed
cache (distinct keys, within capacity) holding `k`, `put k v` replaces the
value, promotes the entry to most-recently-used, leaves the size unchanged
and evicts nothing: every other key's lookup is untouched. -/
theorem c10_put_present_frame (α β : Type) [DecidableEq α] (c : lru_cache α β)
    (k : α) (v : β)
    (hnd : (c.items.map Prod.fst).Nodup) (hle : c.items.length ≤ c.max_size)
    (hk : c.existsKey k = true) :
    (c.put k v).size = c.size
    ∧ (c.put k v).items.head? = some (k, v)
    ∧ (c.put k v).lookupVal k = some v
    ∧ ∀ k2, ¬k2 = k → (c.put k v).lookupVal k2 = c.lookupVal k2 := by
  have hmem : ∃ p ∈ c.items, p.1 = k := by
    unfold lru_cache.existsKey at hk
    rw [List.any_eq_true] at hk
    obtain ⟨p, hp, hpk⟩ := hk
    exact ⟨p, hp, by simpa using hpk⟩
  have hlen := length_filter_of_mem_nodup c.items k hnd hmem
  have hng : ¬((k, v) :: c.items.filter (fun p => !(p.1 == k))).length > c.max_size := by
    simp only [List.length_cons]
    omega
  rw [lru_cache.put_def, if_neg hng]
  refine ⟨?_, rfl, ?_, ?_⟩
  · unfold lru_cache.size
    simp only [List.length_cons]
    omega
  · unfold lru_cache.lookupVal
    simp [List.find?_cons]
  · intro k2 hk2
    unfold lru_cache.lookupVal
    have hne : ((k, v).1 == k2) = false := by
      simp only [beq_eq_false_iff_ne, ne_eq]
      exact fun he => hk2 he.symm
    simp only [List.find?_cons, hne]
    rw [find?_filter_ne c.items k k2 hk2]

/-- Claim C10 witness: the frame statement on a concrete two-entry cache,
overwriting key 1 and observing key 0 untouched. -/
theorem c10_witness :
    ((⟨(0, 10) :: (1, 20) :: [], 2⟩ : lru_cache Nat Nat).put 1 99).size
        = (⟨(0, 10) :: (1, 20) :: [], 2⟩ : lru_cache Nat Nat).size
    ∧ ((⟨(0, 10) :: (1, 20) :: [], 2⟩ : lru_cache Nat Nat).put 1 99).items.head?
        = some (1, 99)
    ∧ ((⟨(0, 10) :: (1, 20) :: [], 2⟩ : lru_cache Nat Nat).put 1 99).lookupVal 1 = some 99
    ∧ ((⟨(0, 10) :: (1, 20) :: [], 2⟩ : lru_cache Nat Nat).put 1 99).lookupVal 0
        = (⟨(0, 10) :: (1, 20) :: [], 2⟩ : lru_cache Nat Nat).lookupVal 0 :=
  ⟨(c10_put_present_frame Nat Nat ⟨(0, 10) :: (1, 20) :: [], 2⟩ 1 99 (by decide) (by decide)
      (by decide)).1,
    (c10_put_present_frame Nat Nat ⟨(0, 10) :: (1, 20) :: [], 2⟩ 1 99 (by decide) (by decide)
      (by decide)).2.1,
    (c10_put_present_frame Nat Nat ⟨(0, 10) :: (1, 20) :: [], 2⟩ 1 99 (by decide) (by decide)
      (by decide)).2.2.1,
    (c10_put_present_frame Nat Nat ⟨(0, 10) :: (1, 20) :: [], 2⟩ 1 99 (by decide) (by decide)
      (by decide)).2.2.2 0 (by decide)⟩
